import Mathlib

set_option maxHeartbeats 1000000

/-! Shallow embedding of `src/template/tools/copier_wrapper.py` and
`src/template/tools/copier_update.py` (easyscience/templates-shared).

Strings are modelled as `List Char`; Python's `str.split`, `str.replace`
and `str.startswith` are embedded below with Python's semantics.  The
network boundary (the `requests` release lookup and the `pooch` download),
the filesystem (the cache directory) and the `copier` subprocess are
modelled as explicit oracle parameters and state, so every function stays
pure and executable.
-/

/-- Python `s.split(sep, n)`: split on at most `n` occurrences of `sep`,
left to right.  `pySplitN sep s 1` embeds `s.split(sep, 1)`;
`pySplitN sep s 2` embeds `s.split(sep, 2)`. -/
def pySplitN (sep : Char) : List Char → Nat → List (List Char)
  | [], _ => [[]]
  | c :: cs, 0 => [c :: cs]
  | c :: cs, n + 1 =>
    if c = sep then [] :: pySplitN sep cs n
    else
      match pySplitN sep cs (n + 1) with
      | [] => [[c]]
      | t :: ts => (c :: t) :: ts

/-- Python `s.split(sep)` with no maxsplit: split on every occurrence. -/
def pySplit (sep : Char) : List Char → List (List Char)
  | [] => [[]]
  | c :: cs =>
    if c = sep then [] :: pySplit sep cs
    else
      match pySplit sep cs with
      | [] => [[c]]
      | t :: ts => (c :: t) :: ts

/-- Python `s.replace(a, b)` for single-character `a`, `b`. -/
def pyReplace (a b : Char) : List Char → List Char
  | [] => []
  | c :: cs => (if c = a then b else c) :: pyReplace a b cs

/-- The fixed fallback branch token `'master'`. -/
def masterTok : List Char := "master".data

/-- Outcome of the release-lookup HTTP GET in `get_stable_ref`: a response
carrying a status code and an optional parsed tag name (`none` models a 200
body whose JSON decoding or `tag_name` lookup raises), or a raised exception
(network error, timeout, DNS failure). -/
inductive HttpOutcome where
  | response (status : Nat) (tagName : Option (List Char))
  | exn
deriving DecidableEq

/-- The release-metadata URL built by `get_stable_ref`. -/
def apiUrl (owner repo : List Char) : List Char :=
  "https://api.github.com/repos/".data ++ owner ++ '/' :: repo
    ++ "/releases/latest".data

/-- Embedding of `get_stable_ref` from copier_wrapper.py: return the latest release tag on
an HTTP 200 response, and fall back to `'master'` on a non-200 status or on
any raised exception (the bare `except Exception: pass`). -/
def get_stable_ref (http : List Char → HttpOutcome) (owner repo : List Char) :
    List Char :=
  match http (apiUrl owner repo) with
  | .response status tag =>
    if status = 200 then
      match tag with
      | some t => t
      | none => masterTok
    else masterTok
  | .exn => masterTok

/-- Result of `parse_github_path`: the `(owner, repo, ref, filepath)` tuple,
or the `ValueError` raised on malformed input. -/
inductive ParseResult where
  | ok (owner repo ref filepath : List Char)
  | err
deriving DecidableEq

/-- Embedding of `parse_github_path` from copier_wrapper.py, with the network release
lookup abstracted as the `http` oracle.  Mirrors the source line by line:
strip the `gh:` prefix (else `ValueError`); if an `'@'` is present, split
once on it, require the left part to split on `'/'` into exactly two pieces,
and split the right part once on `'/'` into exactly two pieces; otherwise
split into three pieces with `split('/', 2)` and resolve the ref with
`get_stable_ref`. -/
def parse_github_path (http : List Char → HttpOutcome) (path : List Char) :
    ParseResult :=
  match path with
  | 'g' :: 'h' :: ':' :: path_without_prefix =>
    if '@' ∈ path_without_prefix then
      match pySplitN '@' path_without_prefix 1 with
      | [repo_part, rest] =>
        match pySplit '/' repo_part with
        | [owner, repo] =>
          match pySplitN '/' rest 1 with
          | [ref, filepath] => ParseResult.ok owner repo ref filepath
          | _ => ParseResult.err
        | _ => ParseResult.err
      | _ => ParseResult.err
    else
      match pySplitN '/' path_without_prefix 2 with
      | [owner, repo, filepath] =>
        ParseResult.ok owner repo (get_stable_ref http owner repo) filepath
      | _ => ParseResult.err
  | _ => ParseResult.err

/-- Hand-compilation of the regex fragment `\d+\.\d+` matched at the start
of a string (Python `re.match` semantics): one or more digits (greedy), a
literal dot, then at least one digit; trailing characters are ignored. -/
def matchNumDotNum : List Char → Bool
  | [] => false
  | c :: cs =>
    c.isDigit &&
      match cs.dropWhile Char.isDigit with
      | '.' :: d :: _ => d.isDigit
      | _ => false

/-- Embedding of `re.match(r'^v?\d+\.\d+', ref)` from `fetch_github_file`: the ref is
classified as a release tag when an optional leading `'v'` followed by
digits, a dot and more digits matches at the start of the string.  (When the
string starts with `'v'` the regex alternative that skips the optional `'v'`
cannot match, since `'v'` is not a digit, so stripping the leading `'v'` is
exact.) -/
def is_release_tag (ref : List Char) : Bool :=
  match ref with
  | 'v' :: cs => matchNumDotNum cs
  | _ => matchNumDotNum ref

/-- The raw-file URL built by `fetch_github_file`: always the branch path
segment `refs/heads/<ref>`, whatever the classification of `ref`. -/
def rawUrl (owner repo ref filepath : List Char) : List Char :=
  "https://raw.githubusercontent.com/".data ++ owner ++ '/' :: repo
    ++ "/refs/heads/".data ++ ref ++ '/' :: filepath

/-- The cache filename built by `fetch_github_file`: the ref, an underscore,
and the file path with every slash replaced by an underscore. -/
def cacheFilename (ref filepath : List Char) : List Char :=
  ref ++ '_' :: pyReplace '/' '_' filepath

/-- The cache directory contents: an association list from cache filename to
file content.  Only this directory is touched by `fetch_github_file`. -/
abbrev FS := List (List Char × List Char)

/-- Content of the file `name` in the cache directory, if present. -/
def fsLookup : FS → List Char → Option (List Char)
  | [], _ => none
  | (n, c) :: fs, name => if n = name then some c else fsLookup fs name

/-- Embedding of `cache_file_path.exists()`. -/
def fsExists (fs : FS) (name : List Char) : Bool :=
  (fsLookup fs name).isSome

/-- Embedding of `cache_file_path.unlink()`: remove the file from the cache directory. -/
def fsDelete : FS → List Char → FS
  | [], _ => []
  | (n, c) :: fs, name =>
    if n = name then fsDelete fs name else (n, c) :: fsDelete fs name

/-- Write `content` at `name` (the download step of the retrieval utility). -/
def fsWrite (fs : FS) (name content : List Char) : FS :=
  (name, content) :: fs

/-- Observable cache/network actions of `fetch_github_file`, in program
order. -/
inductive Event where
  | unlink (name : List Char)
  | retrieve (url name : List Char)
deriving DecidableEq

/-- Modelled from the spec: the external retrieval utility (`pooch.retrieve`
with `known_hash=None`), which is not part of this repository.  Spec 4.3:
when the file is already present locally under the requested name the
retrieval step is an idempotent no-op returning the existing path — dedup
"is delegated to the Fetcher/retrieval utility's own dedup logic"; otherwise
it downloads the URL (the `net` oracle) and writes the file. -/
def pooch_retrieve (net : List Char → List Char) (fs : FS)
    (url fname : List Char) : FS × List Char :=
  if fsExists fs fname then (fs, fname)
  else (fsWrite fs fname (net url), fname)

/-- Embedding of `fetch_github_file` from copier_wrapper.py.  Returns the new cache
state, the returned local path (a filename inside `cache_dir`), and the
ordered list of observable actions; `none` when `parse_github_path`
raises. -/
def fetch_github_file (http : List Char → HttpOutcome)
    (net : List Char → List Char) (fs : FS) (path : List Char) :
    Option (FS × List Char × List Event) :=
  match parse_github_path http path with
  | ParseResult.err => none
  | ParseResult.ok owner repo ref filepath =>
    let url := rawUrl owner repo ref filepath
    let cache_filename := cacheFilename ref filepath
    let step1 : FS × List Event :=
      if !is_release_tag ref && fsExists fs cache_filename then
        (fsDelete fs cache_filename, [Event.unlink cache_filename])
      else (fs, [])
    let step2 := pooch_retrieve net step1.1 url cache_filename
    some (step2.1, step2.2, step1.2 ++ [Event.retrieve url cache_filename])

/-- Embedding of `DEFAULT_BRANCH` from copier_update.py. -/
def DEFAULT_BRANCH : List Char := "master".data

/-- Embedding of `parse_github_url` from copier_update.py: returns `(repo, branch, path)`
where `repo` is the joined `owner/repo` and `branch` is always the fixed
default branch; `none` embeds the `ValueError`. -/
def parse_github_url (url : List Char) :
    Option (List Char × List Char × List Char) :=
  match url with
  | 'g' :: 'h' :: ':' :: rest =>
    match pySplitN '/' rest 2 with
    | [owner, repo, path] => some (owner ++ '/' :: repo, DEFAULT_BRANCH, path)
    | _ => none
  | _ => none

/-- The cache filename of copier_update.py: the flattened file path, with no
version token. -/
def updateCacheFilename (filepath : List Char) : List Char :=
  pyReplace '/' '_' filepath

/-- The raw-file URL of `fetch_project_data`: again hard-coded to the branch
path segment `refs/heads/<branch>`. -/
def updateUrl (repo branch filepath : List Char) : List Char :=
  "https://raw.githubusercontent.com/".data ++ repo ++ "/refs/heads/".data
    ++ branch ++ '/' :: filepath

/-- Embedding of `fetch_project_data` from copier_update.py: one retrieval call. -/
def fetch_project_data (net : List Char → List Char) (fs : FS)
    (repo branch filepath : List Char) : FS × List Char :=
  pooch_retrieve net fs (updateUrl repo branch filepath)
    (updateCacheFilename filepath)

/-- Result of `subprocess.run(['copier'] + copier_args)`: the subprocess
exit code, the `FileNotFoundError` raised when `copier` is not installed, or
any other raised exception. -/
inductive SubprocResult where
  | exited (code : Int)
  | notFound
  | otherError
deriving DecidableEq

/-- Outcome of the whole `try` block of `main` that parses the gh:
reference, creates the cache directory and calls `fetch_github_file`: the
local file path on success, or any raised exception (parse `ValueError`,
fetch failure, ...). -/
inductive FetchOutcome where
  | success (localPath : List Char)
  | failure
deriving DecidableEq

/-- The literal `'--gh-data'`. -/
def ghDataTok : List Char := "--gh-data".data

/-- The literal `'--data-file'`. -/
def dataFileTok : List Char := "--data-file".data

/-- The literal `'copier'`. -/
def copierTok : List Char := "copier".data

/-- The argument scan of `main` (the `while i < len(sys.argv) - 1` loop)
over `sys.argv[1:]`: collects the pass-through `copier_args` and the value
following the last `--gh-data`; `none` embeds the early `return 1` when
`--gh-data` is the final argument. -/
def scanArgs :
    List (List Char) → Option (List (List Char) × Option (List Char))
  | [] => some ([], none)
  | a :: rest =>
    if a = ghDataTok then
      match rest with
      | [] => none
      | v :: rest2 =>
        match scanArgs rest2 with
        | none => none
        | some (ca, gd) =>
          match gd with
          | some g => some (ca, some g)
          | none => some (ca, some v)
    else
      match scanArgs rest with
      | none => none
      | some (ca, gd) => some (a :: ca, gd)

/-- The `if github_data:` block of `main`: the final copier argument list,
or `none` for the `return 1` taken on a parse/fetch failure.  An absent or
empty (Python-falsy) value is passed over; a non-`gh:` value is forwarded
verbatim after `--data-file`. -/
def resolveData (fetch : List Char → FetchOutcome)
    (copier_args : List (List Char)) (github_data : Option (List Char)) :
    Option (List (List Char)) :=
  match github_data with
  | none => some copier_args
  | some g =>
    match g with
    | [] => some copier_args
    | 'g' :: 'h' :: ':' :: _ =>
      match fetch g with
      | FetchOutcome.success p => some (copier_args ++ [dataFileTok, p])
      | FetchOutcome.failure => none
    | _ => some (copier_args ++ [dataFileTok, g])

namespace Wrapper

/-- Embedding of `main` from copier_wrapper.py over the full `sys.argv` (program name
included), with the gh: resolution and the copier subprocess abstracted as
oracles.  Returns the wrapper's exit status. -/
def main (argv : List (List Char)) (fetch : List Char → FetchOutcome)
    (run : List (List Char) → SubprocResult) : Int :=
  match scanArgs (argv.drop 1) with
  | none => 1
  | some (copier_args, github_data) =>
    match resolveData fetch copier_args github_data with
    | none => 1
    | some args =>
      match run (copierTok :: args) with
      | SubprocResult.exited code => code
      | SubprocResult.notFound => 1
      | SubprocResult.otherError => 1

end Wrapper

/-- The spec's "immutable" classification pattern, stated declaratively: an
optional leading `'v'`, a nonempty run of digits, a dot, a nonempty run of
digits, then arbitrary trailing characters (`re.match` anchors only at the
start).  The spec's own examples (`1.0.0`, `v2.3.4` immutable) fix the
trailing-characters reading. -/
def specSemverPrefix (s : List Char) : Prop :=
  ∃ pre d1 d2 rest, (pre = [] ∨ pre = ['v']) ∧ d1 ≠ [] ∧ d2 ≠ [] ∧
    (∀ c ∈ d1, c.isDigit = true) ∧ (∀ c ∈ d2, c.isDigit = true) ∧
    s = pre ++ d1 ++ '.' :: (d2 ++ rest)

theorem pySplitN_zero (sep : Char) (s : List Char) :
    pySplitN sep s 0 = [s] := by
  cases s <;> rfl

theorem pySplitN_ne_nil (sep : Char) (s : List Char) (n : Nat) :
    pySplitN sep s n ≠ [] := by
  cases s with
  | nil => simp [pySplitN]
  | cons c cs =>
    cases n with
    | zero => simp [pySplitN]
    | succ n =>
      simp only [pySplitN]
      split
      · simp
      · split <;> simp

theorem pySplitN_of_not_mem (sep : Char) {s : List Char} (n : Nat)
    (h : sep ∉ s) : pySplitN sep s n = [s] := by
  induction s generalizing n with
  | nil => cases n <;> rfl
  | cons c cs ih =>
    cases n with
    | zero => rfl
    | succ n =>
      have hc : ¬c = sep := fun hcs => h (hcs ▸ List.mem_cons_self c cs)
      have hcs : sep ∉ cs := fun hm => h (List.mem_cons_of_mem c hm)
      simp only [pySplitN, if_neg hc, ih (n + 1) hcs]

theorem pySplitN_append (sep : Char) {a : List Char} (b : List Char)
    (n : Nat) (h : sep ∉ a) :
    pySplitN sep (a ++ sep :: b) (n + 1) = a :: pySplitN sep b n := by
  induction a with
  | nil => simp [pySplitN]
  | cons c cs ih =>
    have hc : ¬c = sep := fun hcs => h (hcs ▸ List.mem_cons_self c cs)
    have hcs : sep ∉ cs := fun hm => h (List.mem_cons_of_mem c hm)
    simp only [List.cons_append, pySplitN, if_neg hc, List.append_eq, ih hcs]

theorem pySplitN_one (sep : Char) {a : List Char} (b : List Char)
    (h : sep ∉ a) : pySplitN sep (a ++ sep :: b) 1 = [a, b] := by
  rw [pySplitN_append sep b 0 h, pySplitN_zero]

theorem pySplitN_two (sep : Char) {a b : List Char} (c : List Char)
    (ha : sep ∉ a) (hb : sep ∉ b) :
    pySplitN sep (a ++ sep :: (b ++ sep :: c)) 2 = [a, b, c] := by
  rw [pySplitN_append sep _ 1 ha, pySplitN_one sep c hb]

theorem pySplit_ne_nil (sep : Char) (s : List Char) : pySplit sep s ≠ [] := by
  cases s with
  | nil => simp [pySplit]
  | cons c cs =>
    simp only [pySplit]
    split
    · simp
    · split <;> simp

theorem pySplit_of_not_mem (sep : Char) {s : List Char} (h : sep ∉ s) :
    pySplit sep s = [s] := by
  induction s with
  | nil => rfl
  | cons c cs ih =>
    have hc : ¬c = sep := fun hcs => h (hcs ▸ List.mem_cons_self c cs)
    have hcs : sep ∉ cs := fun hm => h (List.mem_cons_of_mem c hm)
    simp only [pySplit, if_neg hc, ih hcs]

theorem pySplit_append (sep : Char) {a : List Char} (b : List Char)
    (h : sep ∉ a) : pySplit sep (a ++ sep :: b) = a :: pySplit sep b := by
  induction a with
  | nil => simp [pySplit]
  | cons c cs ih =>
    have hc : ¬c = sep := fun hcs => h (hcs ▸ List.mem_cons_self c cs)
    have hcs : sep ∉ cs := fun hm => h (List.mem_cons_of_mem c hm)
    simp only [List.cons_append, pySplit, if_neg hc, List.append_eq, ih hcs]

theorem pySplit_pair (sep : Char) {a b : List Char} (ha : sep ∉ a)
    (hb : sep ∉ b) : pySplit sep (a ++ sep :: b) = [a, b] := by
  rw [pySplit_append sep b ha, pySplit_of_not_mem sep hb]

theorem pySplit_singleton_eq (sep : Char) {s x : List Char}
    (h : pySplit sep s = [x]) : s = x ∧ sep ∉ x := by
  induction s generalizing x with
  | nil =>
    have hx : x = [] := by simpa [pySplit] using h.symm
    simp [hx]
  | cons c cs ih =>
    have hstep : pySplit sep (c :: cs) =
        if c = sep then [] :: pySplit sep cs
        else match pySplit sep cs with
          | [] => [[c]]
          | t :: ts => (c :: t) :: ts := rfl
    rw [hstep] at h
    by_cases hc : c = sep
    · rw [if_pos hc] at h
      exact absurd (by injection h) (pySplit_ne_nil sep cs)
    · rw [if_neg hc] at h
      rcases he : pySplit sep cs with _ | ⟨t, ts⟩
      · exact absurd he (pySplit_ne_nil sep cs)
      · rw [he] at h
        injection h with h1 h2
        subst h2
        obtain ⟨rfl, hmem⟩ := ih he
        subst h1
        exact ⟨rfl, by
          intro hm
          rcases List.mem_cons.mp hm with h | h
          · exact hc h.symm
          · exact hmem h⟩

theorem pySplit_pair_eq (sep : Char) {s a b : List Char}
    (h : pySplit sep s = [a, b]) :
    s = a ++ sep :: b ∧ sep ∉ a ∧ sep ∉ b := by
  induction s generalizing a with
  | nil => simp [pySplit] at h
  | cons c cs ih =>
    have hstep : pySplit sep (c :: cs) =
        if c = sep then [] :: pySplit sep cs
        else match pySplit sep cs with
          | [] => [[c]]
          | t :: ts => (c :: t) :: ts := rfl
    rw [hstep] at h
    by_cases hc : c = sep
    · rw [if_pos hc] at h
      injection h with h1 h2
      obtain ⟨rfl, hb⟩ := pySplit_singleton_eq sep h2
      subst h1
      exact ⟨by simp [hc], by simp, hb⟩
    · rw [if_neg hc] at h
      rcases he : pySplit sep cs with _ | ⟨t, ts⟩
      · exact absurd he (pySplit_ne_nil sep cs)
      · rw [he] at h
        injection h with h1 h2
        subst h2
        obtain ⟨rfl, hta, hb⟩ := ih he
        subst h1
        refine ⟨rfl, ?_, hb⟩
        intro hm
        rcases List.mem_cons.mp hm with h | h
        · exact hc h.symm
        · exact hta h

theorem pySplitN_one_eq (sep : Char) {s a b : List Char}
    (h : pySplitN sep s 1 = [a, b]) : s = a ++ sep :: b ∧ sep ∉ a := by
  induction s generalizing a with
  | nil => simp [pySplitN] at h
  | cons c cs ih =>
    have hstep : pySplitN sep (c :: cs) 1 =
        if c = sep then [] :: pySplitN sep cs 0
        else match pySplitN sep cs 1 with
          | [] => [[c]]
          | t :: ts => (c :: t) :: ts := rfl
    rw [hstep] at h
    by_cases hc : c = sep
    · rw [if_pos hc, pySplitN_zero] at h
      injection h with h1 h2
      injection h2 with h2 h3
      subst h1
      subst h2
      simp [hc]
    · rw [if_neg hc] at h
      rcases he : pySplitN sep cs 1 with _ | ⟨t, ts⟩
      · exact absurd he (pySplitN_ne_nil sep cs 1)
      · rw [he] at h
        injection h with h1 h2
        subst h2
        obtain ⟨rfl, hta⟩ := ih he
        subst h1
        refine ⟨rfl, ?_⟩
        intro hm
        rcases List.mem_cons.mp hm with h | h
        · exact hc h.symm
        · exact hta h

theorem pySplitN_two_eq (sep : Char) {s a b c : List Char}
    (h : pySplitN sep s 2 = [a, b, c]) :
    s = a ++ sep :: (b ++ sep :: c) ∧ sep ∉ a ∧ sep ∉ b := by
  induction s generalizing a with
  | nil => simp [pySplitN] at h
  | cons d ds ih =>
    have hstep : pySplitN sep (d :: ds) 2 =
        if d = sep then [] :: pySplitN sep ds 1
        else match pySplitN sep ds 2 with
          | [] => [[d]]
          | t :: ts => (d :: t) :: ts := rfl
    rw [hstep] at h
    by_cases hd : d = sep
    · rw [if_pos hd] at h
      injection h with h1 h2
      obtain ⟨rfl, hb⟩ := pySplitN_one_eq sep h2
      subst h1
      exact ⟨by simp [hd], by simp, hb⟩
    · rw [if_neg hd] at h
      rcases he : pySplitN sep ds 2 with _ | ⟨t, ts⟩
      · exact absurd he (pySplitN_ne_nil sep ds 2)
      · rw [he] at h
        injection h with h1 h2
        subst h2
        obtain ⟨rfl, hta, hb⟩ := ih he
        subst h1
        refine ⟨rfl, ?_, hb⟩
        intro hm
        rcases List.mem_cons.mp hm with h | h
        · exact hd h.symm
        · exact hta h

theorem dropWhile_append_of_all {p : Char → Bool} {l : List Char}
    (r : List Char) (h : ∀ c ∈ l, p c = true) :
    List.dropWhile p (l ++ r) = List.dropWhile p r := by
  induction l with
  | nil => rfl
  | cons c cs ih =>
    have hc : p c = true := h c (List.mem_cons_self c cs)
    simp only [List.cons_append, List.dropWhile_cons, hc, if_true]
    exact ih fun d hd => h d (List.mem_cons_of_mem c hd)

theorem mem_takeWhile_digit {l : List Char} {c : Char}
    (h : c ∈ List.takeWhile Char.isDigit l) : c.isDigit = true := by
  induction l with
  | nil => simp [List.takeWhile] at h
  | cons d ds ih =>
    rw [List.takeWhile_cons] at h
    by_cases hd : d.isDigit
    · rw [if_pos hd] at h
      rcases List.mem_cons.mp h with h | h
      · exact h ▸ hd
      · exact ih h
    · rw [if_neg hd] at h
      simp at h

theorem not_mem_pyReplace {a b : Char} (hab : a ≠ b) (s : List Char) :
    a ∉ pyReplace a b s := by
  induction s with
  | nil => simp [pyReplace]
  | cons c cs ih =>
    simp only [pyReplace]
    intro hm
    rcases List.mem_cons.mp hm with h | h
    · by_cases hc : c = a
      · rw [if_pos hc] at h
        exact hab h
      · rw [if_neg hc] at h
        exact hc h.symm
    · exact ih h

theorem matchNumDotNum_iff (s : List Char) :
    matchNumDotNum s = true ↔
      ∃ d1 d2 rest, d1 ≠ [] ∧ d2 ≠ [] ∧ (∀ c ∈ d1, c.isDigit = true) ∧
        (∀ c ∈ d2, c.isDigit = true) ∧ s = d1 ++ '.' :: (d2 ++ rest) := by
  constructor
  · intro h
    cases s with
    | nil => simp [matchNumDotNum] at h
    | cons c cs =>
      have hstep : matchNumDotNum (c :: cs) =
          (c.isDigit &&
            match cs.dropWhile Char.isDigit with
            | '.' :: d :: _ => d.isDigit
            | _ => false) := rfl
      rw [hstep] at h
      obtain ⟨hc, hm⟩ : c.isDigit = true ∧
          (match cs.dropWhile Char.isDigit with
            | '.' :: d :: _ => d.isDigit
            | _ => false) = true := by
        constructor
        · cases hcb : c.isDigit
          · rw [hcb] at h
            simp at h
          · rfl
        · cases hcb : c.isDigit
          · rw [hcb] at h
            simp at h
          · rw [hcb] at h
            simpa using h
      split at hm
      · rename_i d tail2 heq
        have hd : cs.dropWhile Char.isDigit = '.' :: d :: tail2 := heq
        refine ⟨c :: cs.takeWhile Char.isDigit, [d], tail2, by simp,
          by simp, ?_, ?_, ?_⟩
        · intro x hx
          rcases List.mem_cons.mp hx with hx | hx
          · exact hx ▸ hc
          · exact mem_takeWhile_digit hx
        · intro x hx
          rcases List.mem_cons.mp hx with hx | hx
          · exact hx ▸ hm
          · simp at hx
        · have hsplit := List.takeWhile_append_dropWhile
            (p := Char.isDigit) (l := cs)
          rw [hd] at hsplit
          simp [hsplit]
      · exact absurd hm (by simp)
  · rintro ⟨d1, d2, rest, h1ne, h2ne, h1d, h2d, rfl⟩
    rcases d1 with _ | ⟨c, t⟩
    · exact absurd rfl h1ne
    rcases d2 with _ | ⟨d, dt⟩
    · exact absurd rfl h2ne
    have hc : c.isDigit = true := h1d c (List.mem_cons_self _ _)
    have hd : d.isDigit = true := h2d d (List.mem_cons_self _ _)
    have hdot : ('.').isDigit = false := by decide
    have hdrop : List.dropWhile Char.isDigit (t ++ '.' :: d :: (dt ++ rest))
        = '.' :: d :: (dt ++ rest) := by
      rw [dropWhile_append_of_all _
        (fun x hx => h1d x (List.mem_cons_of_mem c hx))]
      rw [List.dropWhile_cons, hdot]
      simp
    have hstep : matchNumDotNum (c :: (t ++ '.' :: d :: (dt ++ rest))) =
        (c.isDigit &&
          match List.dropWhile Char.isDigit (t ++ '.' :: d :: (dt ++ rest)) with
          | '.' :: e :: _ => e.isDigit
          | _ => false) := rfl
    simp only [List.cons_append]
    rw [hstep, hdrop, hc]
    simp [hd]

theorem is_release_tag_iff (ref : List Char) :
    is_release_tag ref = true ↔ specSemverPrefix ref := by
  have vnotdigit : ('v').isDigit = false := by decide
  constructor
  · intro h
    rcases ref with _ | ⟨c, cs⟩
    · simp [is_release_tag, matchNumDotNum] at h
    by_cases hc : c = 'v'
    · subst hc
      have h' : matchNumDotNum cs = true := h
      obtain ⟨d1, d2, rest, h1, h2, h3, h4, h5⟩ := (matchNumDotNum_iff cs).mp h'
      exact ⟨['v'], d1, d2, rest, Or.inr rfl, h1, h2, h3, h4, by
        simp [h5]⟩
    · have h' : matchNumDotNum (c :: cs) = true := by
        unfold is_release_tag at h
        split at h
        · rename_i heq
          injection heq with h1 _
          exact absurd h1 hc
        · exact h
      obtain ⟨d1, d2, rest, h1, h2, h3, h4, h5⟩ :=
        (matchNumDotNum_iff (c :: cs)).mp h'
      exact ⟨[], d1, d2, rest, Or.inl rfl, h1, h2, h3, h4, by simp [h5]⟩
  · rintro ⟨pre, d1, d2, rest, hpre, h1, h2, h3, h4, rfl⟩
    rcases d1 with _ | ⟨c, t⟩
    · exact absurd rfl h1
    have hcdig : c.isDigit = true := h3 c (List.mem_cons_self _ _)
    have hcv : c ≠ 'v' := by
      intro hcv
      rw [hcv] at hcdig
      rw [vnotdigit] at hcdig
      exact Bool.false_ne_true hcdig
    have hmatch : matchNumDotNum ((c :: t) ++ '.' :: (d2 ++ rest)) = true :=
      (matchNumDotNum_iff _).mpr ⟨c :: t, d2, rest, by simp, h2, h3, h4, rfl⟩
    rcases hpre with rfl | rfl
    · simp only [List.nil_append]
      unfold is_release_tag
      split
      · rename_i heq
        rw [List.cons_append] at heq
        injection heq with hh1 _
        exact absurd hh1 hcv
      · exact hmatch
    · simp only [List.singleton_append, List.cons_append]
      exact hmatch

/-- C2: the cache-policy classifier marks a version token immutable exactly
when an optional leading `'v'`, one or more digits, a dot, and one or more
digits match at the start of the token; in particular `v1.2`, `1.0.0`,
`v2.3.4` are immutable and `master`, `dev`, `feature-x`, `1` are mutable. -/
theorem release_tag_classification :
    (∀ ref, is_release_tag ref = true ↔ specSemverPrefix ref) ∧
    is_release_tag "v1.2".data = true ∧
    is_release_tag "1.0.0".data = true ∧
    is_release_tag "v2.3.4".data = true ∧
    is_release_tag "master".data = false ∧
    is_release_tag "dev".data = false ∧
    is_release_tag "feature-x".data = false ∧
    is_release_tag "1".data = false :=
  ⟨is_release_tag_iff, by decide, by decide, by decide, by decide, by decide,
    by decide, by decide⟩

/-- C5: `get_stable_ref` returns the release's tag name on a successful
release lookup (HTTP 200 carrying a parseable `tag_name`), and on any
failure — non-200 status, a 200 body whose decoding raises, or a raised
exception (network error, timeout) — it deterministically returns the fixed
default branch token `'master'`, never surfacing an error. -/
theorem get_stable_ref_policy (http : List Char → HttpOutcome)
    (owner repo : List Char) :
    (∀ t, http (apiUrl owner repo) = HttpOutcome.response 200 (some t) →
      get_stable_ref http owner repo = t) ∧
    (∀ status tag, http (apiUrl owner repo) = HttpOutcome.response status tag →
      status ≠ 200 → get_stable_ref http owner repo = "master".data) ∧
    (http (apiUrl owner repo) = HttpOutcome.response 200 none →
      get_stable_ref http owner repo = "master".data) ∧
    (http (apiUrl owner repo) = HttpOutcome.exn →
      get_stable_ref http owner repo = "master".data) := by
  refine ⟨?_, ?_, ?_, ?_⟩
  · intro t h
    simp [get_stable_ref, h]
  · intro status tag h hs
    simp [get_stable_ref, h, hs, masterTok]
  · intro h
    simp [get_stable_ref, h, masterTok]
  · intro h
    simp [get_stable_ref, h, masterTok]

theorem get_stable_ref_policy_witness :
    get_stable_ref (fun _ => HttpOutcome.response 200 (some "v1.2".data))
        "o".data "r".data = "v1.2".data ∧
    get_stable_ref (fun _ => HttpOutcome.response 404 none)
        "o".data "r".data = "master".data ∧
    get_stable_ref (fun _ => HttpOutcome.exn)
        "o".data "r".data = "master".data :=
  ⟨(get_stable_ref_policy _ _ _).1 _ rfl,
   (get_stable_ref_policy _ _ _).2.1 404 none rfl (by decide),
   (get_stable_ref_policy _ _ _).2.2.2 rfl⟩

theorem fsExists_fsDelete (fs : FS) (name : List Char) :
    fsExists (fsDelete fs name) name = false := by
  induction fs with
  | nil => rfl
  | cons p fs ih =>
    obtain ⟨n, c⟩ := p
    simp only [fsDelete]
    by_cases hn : n = name
    · rw [if_pos hn]
      exact ih
    · rw [if_neg hn]
      simp only [fsExists, fsLookup, if_neg hn]
      exact ih

/-- C3: when the resolved ref is classified mutable and a file already
exists at the computed cache path, `fetch_github_file` unlinks it first:
the unlink event precedes the retrieve event, and the retrieval step is
invoked on the state from which the cached file has been removed (the file
no longer exists there). -/
theorem mutable_ref_deletes_before_fetch
    (http : List Char → HttpOutcome) (net : List Char → List Char) (fs : FS)
    (path owner repo ref filepath : List Char)
    (hp : parse_github_path http path = ParseResult.ok owner repo ref filepath)
    (hm : is_release_tag ref = false)
    (he : fsExists fs (cacheFilename ref filepath) = true) :
    fetch_github_file http net fs path
      = some ((pooch_retrieve net (fsDelete fs (cacheFilename ref filepath))
            (rawUrl owner repo ref filepath) (cacheFilename ref filepath)).1,
          (pooch_retrieve net (fsDelete fs (cacheFilename ref filepath))
            (rawUrl owner repo ref filepath) (cacheFilename ref filepath)).2,
          [Event.unlink (cacheFilename ref filepath),
            Event.retrieve (rawUrl owner repo ref filepath)
              (cacheFilename ref filepath)]) ∧
    fsExists (fsDelete fs (cacheFilename ref filepath))
        (cacheFilename ref filepath) = false := by
  refine ⟨?_, fsExists_fsDelete fs _⟩
  simp only [fetch_github_file, hp, hm, he]
  simp

theorem mutable_ref_deletes_before_fetch_witness :
    fetch_github_file (fun _ => HttpOutcome.exn) (fun _ => "new".data)
        [("master_f.yaml".data, "old".data)] "gh:a/b@master/f.yaml".data
      = some ([("master_f.yaml".data, "new".data)], "master_f.yaml".data,
          [Event.unlink "master_f.yaml".data,
            Event.retrieve
              "https://raw.githubusercontent.com/a/b/refs/heads/master/f.yaml".data
              "master_f.yaml".data]) ∧
    fsExists (fsDelete [("master_f.yaml".data, "old".data)]
        "master_f.yaml".data) "master_f.yaml".data = false := by
  have h := mutable_ref_deletes_before_fetch (fun _ => HttpOutcome.exn)
    (fun _ => "new".data) [("master_f.yaml".data, "old".data)]
    "gh:a/b@master/f.yaml".data "a".data "b".data "master".data "f.yaml".data
    (by decide) (by decide) (by decide)
  exact ⟨h.1.trans (by decide), h.2⟩

/-- C4: when the resolved ref is classified immutable and a cache file
already exists at the computed path, `fetch_github_file` performs no
deletion, the cache state — hence the existing file's content — is
unchanged (the retrieval step is a no-op on an already-present file), and
the returned path is the existing file's path. -/
theorem immutable_ref_keeps_cache
    (http : List Char → HttpOutcome) (net : List Char → List Char) (fs : FS)
    (path owner repo ref filepath : List Char)
    (hp : parse_github_path http path = ParseResult.ok owner repo ref filepath)
    (hm : is_release_tag ref = true)
    (he : fsExists fs (cacheFilename ref filepath) = true) :
    fetch_github_file http net fs path
      = some (fs, cacheFilename ref filepath,
          [Event.retrieve (rawUrl owner repo ref filepath)
            (cacheFilename ref filepath)]) := by
  simp only [fetch_github_file, hp, hm, he, pooch_retrieve]
  simp [he]

theorem immutable_ref_keeps_cache_witness :
    fetch_github_file (fun _ => HttpOutcome.exn) (fun _ => "new".data)
        [("v1.0.0_config.yaml".data, "old".data)]
        "gh:acme/widgets@v1.0.0/config.yaml".data
      = some ([("v1.0.0_config.yaml".data, "old".data)],
          "v1.0.0_config.yaml".data,
          [Event.retrieve
            "https://raw.githubusercontent.com/acme/widgets/refs/heads/v1.0.0/config.yaml".data
            "v1.0.0_config.yaml".data]) := by
  have h := immutable_ref_keeps_cache (fun _ => HttpOutcome.exn)
    (fun _ => "new".data) [("v1.0.0_config.yaml".data, "old".data)]
    "gh:acme/widgets@v1.0.0/config.yaml".data "acme".data "widgets".data
    "v1.0.0".data "config.yaml".data (by decide) (by decide) (by decide)
  exact h.trans (by decide)

/-- C6: the cache filename is the resolved version token, an underscore,
and the file path with every slash flattened to an underscore (so the
flattened part is slash-free); for a fixed file path the filename is
injective in the version token, so distinct resolved versions never
collide; on input gh:acme/widgets/config.yaml with the release lookup
unreachable the returned cache filename is master_config.yaml; and the
update script always resolves its branch to the fixed default token. -/
theorem cache_filename_spec :
    (∀ ref fp, cacheFilename ref fp = ref ++ '_' :: pyReplace '/' '_' fp ∧
      '/' ∉ pyReplace '/' '_' fp) ∧
    (∀ fp r1 r2, r1 ≠ r2 → cacheFilename r1 fp ≠ cacheFilename r2 fp) ∧
    (∀ net fs2 ret evs,
      fetch_github_file (fun _ => HttpOutcome.exn) net []
          "gh:acme/widgets/config.yaml".data = some (fs2, ret, evs) →
      ret = "master_config.yaml".data) ∧
    (∀ url repo branch fp, parse_github_url url = some (repo, branch, fp) →
      branch = DEFAULT_BRANCH) := by
  refine ⟨?_, ?_, ?_, ?_⟩
  · intro ref fp
    exact ⟨rfl, not_mem_pyReplace (by decide) fp⟩
  · intro fp r1 r2 hne heq
    exact hne (List.append_cancel_right heq)
  · intro net fs2 ret evs h
    have hr : fetch_github_file (fun _ => HttpOutcome.exn) net []
        "gh:acme/widgets/config.yaml".data
      = some ([("master_config.yaml".data,
            net "https://raw.githubusercontent.com/acme/widgets/refs/heads/master/config.yaml".data)],
          "master_config.yaml".data,
          [Event.retrieve
            "https://raw.githubusercontent.com/acme/widgets/refs/heads/master/config.yaml".data
            "master_config.yaml".data]) := rfl
    rw [hr] at h
    simp only [Option.some.injEq, Prod.mk.injEq] at h
    exact h.2.1.symm
  · intro url repo branch fp h
    unfold parse_github_url at h
    split at h
    · split at h
      · simp only [Option.some.injEq, Prod.mk.injEq] at h
        exact h.2.1.symm
      · simp at h
    · simp at h

theorem cache_filename_spec_witness :
    cacheFilename "v1.0".data "config.yaml".data
        ≠ cacheFilename "master".data "config.yaml".data ∧
    ("master_config.yaml".data : List Char) = "master_config.yaml".data ∧
    ("master".data : List Char) = DEFAULT_BRANCH :=
  ⟨cache_filename_spec.2.1 "config.yaml".data "v1.0".data "master".data
      (by decide),
    cache_filename_spec.2.2.1 (fun _ => "c".data)
      [("master_config.yaml".data, "c".data)] "master_config.yaml".data
      [Event.retrieve
        "https://raw.githubusercontent.com/acme/widgets/refs/heads/master/config.yaml".data
        "master_config.yaml".data] rfl,
    cache_filename_spec.2.2.2 "gh:o/r/p.yaml".data "o/r".data
      "master".data "p.yaml".data (by decide)⟩

/-- C10: every retrieval performed by `fetch_github_file` downloads from
the branch URL path `refs/heads/<ref>` interpolated from the parsed fields
— whatever the ref, including refs classified as immutable release tags —
and `fetch_project_data` builds its URL with the same branch path. -/
theorem refs_heads_url (http : List Char → HttpOutcome)
    (net : List Char → List Char) (fs : FS) (path : List Char) (fs2 : FS)
    (ret : List Char) (evs : List Event)
    (h : fetch_github_file http net fs path = some (fs2, ret, evs)) :
    (∃ owner repo ref filepath,
      parse_github_path http path = ParseResult.ok owner repo ref filepath ∧
      Event.retrieve
          ("https://raw.githubusercontent.com/".data ++ owner ++ '/' :: repo
            ++ "/refs/heads/".data ++ ref ++ '/' :: filepath)
          (cacheFilename ref filepath) ∈ evs) ∧
    (∀ repo branch fp, updateUrl repo branch fp
      = "https://raw.githubusercontent.com/".data ++ repo
          ++ "/refs/heads/".data ++ branch ++ '/' :: fp) := by
  constructor
  · rcases hp : parse_github_path http path with ⟨owner, repo, ref, filepath⟩ | _
    · refine ⟨owner, repo, ref, filepath, rfl, ?_⟩
      simp only [fetch_github_file, hp] at h
      simp only [Option.some.injEq, Prod.mk.injEq] at h
      obtain ⟨h1, h2, h3⟩ := h
      rw [← h3]
      simp [rawUrl]
    · simp [fetch_github_file, hp] at h
  · intro repo branch fp
    rfl

theorem refs_heads_url_witness :
    (∃ owner repo ref filepath,
      parse_github_path (fun _ => HttpOutcome.exn)
          "gh:acme/widgets@v1.0.0/config.yaml".data
        = ParseResult.ok owner repo ref filepath ∧
      Event.retrieve
          ("https://raw.githubusercontent.com/".data ++ owner ++ '/' :: repo
            ++ "/refs/heads/".data ++ ref ++ '/' :: filepath)
          (cacheFilename ref filepath)
        ∈ [Event.retrieve
            "https://raw.githubusercontent.com/acme/widgets/refs/heads/v1.0.0/config.yaml".data
            "v1.0.0_config.yaml".data]) ∧
    (∀ repo branch fp, updateUrl repo branch fp
      = "https://raw.githubusercontent.com/".data ++ repo
          ++ "/refs/heads/".data ++ branch ++ '/' :: fp) :=
  refs_heads_url (fun _ => HttpOutcome.exn) (fun _ => "c".data)
    [("v1.0.0_config.yaml".data, "old".data)]
    "gh:acme/widgets@v1.0.0/config.yaml".data
    [("v1.0.0_config.yaml".data, "old".data)] "v1.0.0_config.yaml".data
    [Event.retrieve
      "https://raw.githubusercontent.com/acme/widgets/refs/heads/v1.0.0/config.yaml".data
      "v1.0.0_config.yaml".data] (by decide)

/-- C1 counterexample: on `gh:a/b@/f` the part after the `'@'` splits on
its first slash into an empty first part and `f` — by the claim this must
fail with a FormatError since the parts are not both non-empty — yet
`parse_github_path` succeeds, returning an empty ref. -/
theorem parse_github_path_accepts_empty_ref :
    parse_github_path (fun _ => HttpOutcome.exn) "gh:a/b@/f".data
      = ParseResult.ok "a".data "b".data [] "f".data := by decide

/-- C1 (amended): for inputs of the form `gh:owner/repo@rest` (owner and
repo free of `'/'` and `'@'`), a successful parse returns
`(owner, repo, ref, filepath)` with ref the portion of rest before its
first slash and filepath everything after it (filepath may contain more
slashes); parsing fails whenever the part before the first `'@'` does not
split into exactly two slash-separated segments, or the part after the
first `'@'` contains no slash at all.  Emptiness of the split parts is not
checked. -/
theorem parse_github_path_at_branch :
    (∀ http owner repo ref filepath,
      '/' ∉ owner → '@' ∉ owner → '/' ∉ repo → '@' ∉ repo →
      ('/' : Char) ∉ ref →
      parse_github_path http
          ("gh:".data ++ owner ++ '/' :: repo ++ '@' :: ref
            ++ '/' :: filepath)
        = ParseResult.ok owner repo ref filepath) ∧
    (∀ http pre rest, '@' ∉ pre → (pySplit '/' pre).length ≠ 2 →
      parse_github_path http ("gh:".data ++ pre ++ '@' :: rest)
        = ParseResult.err) ∧
    (∀ http pre rest, '@' ∉ pre → ('/' : Char) ∉ rest →
      parse_github_path http ("gh:".data ++ pre ++ '@' :: rest)
        = ParseResult.err) := by
  have hgh : "gh:".data = ('g' :: 'h' :: ':' :: ([] : List Char)) := rfl
  refine ⟨?_, ?_, ?_⟩
  · intro http owner repo ref filepath ho1 ho2 hr1 hr2 hf
    have hno : '@' ∉ owner ++ '/' :: repo := by
      intro hx
      rcases List.mem_append.mp hx with hx | hx
      · exact ho2 hx
      · rcases List.mem_cons.mp hx with hx | hx
        · exact absurd hx (by decide)
        · exact hr2 hx
    have harg : "gh:".data ++ owner ++ '/' :: repo ++ '@' :: ref
          ++ '/' :: filepath
        = 'g' :: 'h' :: ':'
            :: ((owner ++ '/' :: repo) ++ '@' :: (ref ++ '/' :: filepath)) := by
      rw [hgh]
      simp
    rw [harg]
    have hmem : '@' ∈ (owner ++ '/' :: repo) ++ '@' :: (ref ++ '/' :: filepath) := by
      simp
    simp only [parse_github_path, hmem, if_true,
      pySplitN_one '@' (ref ++ '/' :: filepath) hno,
      pySplit_pair '/' ho1 hr1, pySplitN_one '/' filepath hf]
  · intro http pre rest hat hlen
    have harg : "gh:".data ++ pre ++ '@' :: rest
        = 'g' :: 'h' :: ':' :: (pre ++ '@' :: rest) := by
      rw [hgh]
      simp
    rw [harg]
    have hmem : '@' ∈ pre ++ '@' :: rest := by simp
    simp only [parse_github_path, hmem, if_true, pySplitN_one '@' rest hat]
    rcases hps : pySplit '/' pre with _ | ⟨x, xs⟩
    · exact absurd hps (pySplit_ne_nil '/' pre)
    rcases xs with _ | ⟨y, ys⟩
    · simp [hps]
    rcases ys with _ | ⟨z, zs⟩
    · exact absurd (by rw [hps]; rfl) hlen
    · simp [hps]
  · intro http pre rest hat hslash
    have harg : "gh:".data ++ pre ++ '@' :: rest
        = 'g' :: 'h' :: ':' :: (pre ++ '@' :: rest) := by
      rw [hgh]
      simp
    rw [harg]
    have hmem : '@' ∈ pre ++ '@' :: rest := by simp
    have hrest : pySplitN '/' rest 1 = [rest] :=
      pySplitN_of_not_mem '/' 1 hslash
    simp only [parse_github_path, hmem, if_true, pySplitN_one '@' rest hat]
    rcases hps : pySplit '/' pre with _ | ⟨x, xs⟩
    · exact absurd hps (pySplit_ne_nil '/' pre)
    rcases xs with _ | ⟨y, ys⟩
    · simp [hps]
    rcases ys with _ | ⟨z, zs⟩
    · simp [hps, hrest]
    · simp [hps]

theorem parse_github_path_at_branch_witness :
    parse_github_path (fun _ => HttpOutcome.exn)
        ("gh:".data ++ "o".data ++ '/' :: "r".data ++ '@' :: "v1".data
          ++ '/' :: "a/b.yaml".data)
      = ParseResult.ok "o".data "r".data "v1".data "a/b.yaml".data ∧
    parse_github_path (fun _ => HttpOutcome.exn)
        ("gh:".data ++ "o/r/x".data ++ '@' :: "m/f".data)
      = ParseResult.err ∧
    parse_github_path (fun _ => HttpOutcome.exn)
        ("gh:".data ++ "o/r".data ++ '@' :: "noslash".data)
      = ParseResult.err :=
  ⟨parse_github_path_at_branch.1 _ "o".data "r".data "v1".data
      "a/b.yaml".data (by decide) (by decide) (by decide) (by decide)
      (by decide),
    parse_github_path_at_branch.2.1 _ "o/r/x".data "m/f".data (by decide)
      (by decide),
    parse_github_path_at_branch.2.2 _ "o/r".data "noslash".data (by decide)
      (by decide)⟩

/-- C9 counterexample: `gh:/b@r/f` parses successfully with an empty owner
field, so a successful parse does not guarantee non-empty owner,
repository and version fields. -/
theorem parse_github_path_accepts_empty_owner :
    parse_github_path (fun _ => HttpOutcome.exn) "gh:/b@r/f".data
      = ParseResult.ok [] "b".data "r".data "f".data := by decide

/-- C9 (amended): on any successful parse the returned fields are exactly
the corresponding segments of the input — the input is reconstructed from
them — but they may be empty (only the separator structure is enforced);
in the no-`'@'` branch the version is whatever the stable-reference
resolver returned for the parsed owner and repository. -/
theorem parse_github_path_fields (http : List Char → HttpOutcome)
    (path owner repo ref filepath : List Char)
    (h : parse_github_path http path
      = ParseResult.ok owner repo ref filepath) :
    (path = "gh:".data ++ owner ++ '/' :: repo ++ '@' :: ref
        ++ '/' :: filepath
      ∧ '/' ∉ owner ∧ '/' ∉ repo ∧ '@' ∉ owner ∧ '@' ∉ repo
      ∧ ('/' : Char) ∉ ref)
    ∨ (path = "gh:".data ++ owner ++ '/' :: repo ++ '/' :: filepath
      ∧ ref = get_stable_ref http owner repo ∧ '/' ∉ owner ∧ '/' ∉ repo) := by
  have hgh : "gh:".data = ('g' :: 'h' :: ':' :: ([] : List Char)) := rfl
  unfold parse_github_path at h
  split at h
  · rename_i pwp
    split at h
    · -- the '@' branch
      rename_i hat
      split at h
      · rename_i repo_part rest heq1
        split at h
        · rename_i owner2 repo2 heq2
          split at h
          · rename_i ref2 filepath2 heq3
            injection h with e1 e2 e3 e4
            subst e1
            subst e2
            subst e3
            subst e4
            obtain ⟨hpwp, hnat⟩ := pySplitN_one_eq '@' heq1
            obtain ⟨hrp, ho, hr⟩ := pySplit_pair_eq '/' heq2
            obtain ⟨hrest, hf⟩ := pySplitN_one_eq '/' heq3
            have hao : '@' ∉ owner2 := fun hx =>
              hnat (by rw [hrp]; exact List.mem_append_left _ hx)
            have har : '@' ∉ repo2 := fun hx =>
              hnat (by
                rw [hrp]
                exact List.mem_append_right _ (List.mem_cons_of_mem _ hx))
            left
            refine ⟨?_, ho, hr, hao, har, hf⟩
            rw [hgh, hpwp, hrp, hrest]
            simp
          · exact absurd h (by simp)
        · exact absurd h (by simp)
      · exact absurd h (by simp)
    · -- the no-'@' branch
      split at h
      · rename_i o2 r2 f2 heq
        injection h with e1 e2 e3 e4
        subst e1
        subst e2
        subst e3
        subst e4
        obtain ⟨hpwp, ho, hr⟩ := pySplitN_two_eq '/' heq
        right
        refine ⟨?_, rfl, ho, hr⟩
        rw [hgh, hpwp]
        simp
      · exact absurd h (by simp)
  · exact absurd h (by simp)

theorem parse_github_path_fields_witness :
    ("gh:x/y@v/z.yaml".data
        = "gh:".data ++ "x".data ++ '/' :: "y".data ++ '@' :: "v".data
            ++ '/' :: "z.yaml".data
      ∧ '/' ∉ "x".data ∧ '/' ∉ "y".data ∧ '@' ∉ "x".data ∧ '@' ∉ "y".data
      ∧ ('/' : Char) ∉ "v".data)
    ∨ ("gh:x/y@v/z.yaml".data
        = "gh:".data ++ "x".data ++ '/' :: "y".data ++ '/' :: "z.yaml".data
      ∧ "v".data = get_stable_ref (fun _ => HttpOutcome.exn) "x".data "y".data
      ∧ '/' ∉ "x".data ∧ '/' ∉ "y".data) :=
  parse_github_path_fields (fun _ => HttpOutcome.exn) "gh:x/y@v/z.yaml".data
    "x".data "y".data "v".data "z.yaml".data (by decide)

/-- C7: the wrapper's exit status is the copier subprocess's own exit code
when the subprocess runs (hence 0 exactly on its success), and 1 on a
missing `--gh-data` value, on any parse or fetch failure inside the gh:
resolution, when the copier executable cannot be located, or when invoking
it raises any other exception. -/
theorem main_exit_codes (argv : List (List Char))
    (fetch : List Char → FetchOutcome)
    (run : List (List Char) → SubprocResult) :
    (scanArgs (argv.drop 1) = none → Wrapper.main argv fetch run = 1) ∧
    (∀ ca gd, scanArgs (argv.drop 1) = some (ca, gd) →
      resolveData fetch ca gd = none → Wrapper.main argv fetch run = 1) ∧
    (∀ ca rest, scanArgs (argv.drop 1)
        = some (ca, some ('g' :: 'h' :: ':' :: rest)) →
      fetch ('g' :: 'h' :: ':' :: rest) = FetchOutcome.failure →
      Wrapper.main argv fetch run = 1) ∧
    (∀ ca gd args, scanArgs (argv.drop 1) = some (ca, gd) →
      resolveData fetch ca gd = some args →
      run (copierTok :: args) = SubprocResult.notFound →
      Wrapper.main argv fetch run = 1) ∧
    (∀ ca gd args, scanArgs (argv.drop 1) = some (ca, gd) →
      resolveData fetch ca gd = some args →
      run (copierTok :: args) = SubprocResult.otherError →
      Wrapper.main argv fetch run = 1) ∧
    (∀ ca gd args c, scanArgs (argv.drop 1) = some (ca, gd) →
      resolveData fetch ca gd = some args →
      run (copierTok :: args) = SubprocResult.exited c →
      Wrapper.main argv fetch run = c) := by
  refine ⟨?_, ?_, ?_, ?_, ?_, ?_⟩
  · intro h
    rw [List.drop_one] at h
    simp [Wrapper.main, h]
  · intro ca gd h1 h2
    rw [List.drop_one] at h1
    simp [Wrapper.main, h1, h2]
  · intro ca rest h1 h2
    rw [List.drop_one] at h1
    simp [Wrapper.main, h1, resolveData, h2]
  · intro ca gd args h1 h2 h3
    rw [List.drop_one] at h1
    simp [Wrapper.main, h1, h2, h3]
  · intro ca gd args h1 h2 h3
    rw [List.drop_one] at h1
    simp [Wrapper.main, h1, h2, h3]
  · intro ca gd args c h1 h2 h3
    rw [List.drop_one] at h1
    simp [Wrapper.main, h1, h2, h3]

theorem main_exit_codes_witness :
    Wrapper.main ["prog".data, "copy".data] (fun _ => FetchOutcome.failure)
        (fun _ => SubprocResult.exited 3) = 3 ∧
    Wrapper.main ["prog".data] (fun _ => FetchOutcome.failure)
        (fun _ => SubprocResult.notFound) = 1 :=
  ⟨(main_exit_codes ["prog".data, "copy".data] (fun _ => FetchOutcome.failure)
        (fun _ => SubprocResult.exited 3)).2.2.2.2.2
      ["copy".data] none ["copy".data] 3 rfl rfl rfl,
    (main_exit_codes ["prog".data] (fun _ => FetchOutcome.failure)
        (fun _ => SubprocResult.notFound)).2.2.2.1 [] none [] rfl rfl rfl⟩

theorem scanArgs_append_flag :
    ∀ (n : Nat) (pre : List (List Char)), pre.length ≤ n →
      ∀ ca gd, scanArgs pre = some (ca, gd) →
        scanArgs (pre ++ [ghDataTok]) = none := by
  intro n
  induction n with
  | zero =>
    intro pre hlen ca gd h
    have hnil : pre = [] := List.length_eq_zero.mp (Nat.le_zero.mp hlen)
    subst hnil
    rfl
  | succ n ih =>
    intro pre hlen ca gd h
    cases pre with
    | nil => rfl
    | cons a rest =>
      by_cases ha : a = ghDataTok
      · subst ha
        cases rest with
        | nil =>
          rw [show scanArgs [ghDataTok] = none from rfl] at h
          exact Option.noConfusion h
        | cons v rest2 =>
          rcases hs : scanArgs rest2 with _ | ⟨ca2, gd2⟩
          · unfold scanArgs at h
            simp [hs] at h
          · have hlen2 : rest2.length ≤ n := by
              simp only [List.length_cons] at hlen
              omega
            have h2 := ih rest2 hlen2 ca2 gd2 hs
            show scanArgs (ghDataTok :: v :: (rest2 ++ [ghDataTok])) = none
            unfold scanArgs
            simp [h2]
      · rcases hs : scanArgs rest with _ | ⟨ca2, gd2⟩
        · unfold scanArgs at h
          rw [if_neg ha] at h
          simp [hs] at h
        · have hlen2 : rest.length ≤ n := by
            simp only [List.length_cons] at hlen
            omega
          have h2 := ih rest hlen2 ca2 gd2 hs
          show scanArgs (a :: (rest ++ [ghDataTok])) = none
          unfold scanArgs
          rw [if_neg ha]
          simp [h2]

/-- C8: when `--gh-data` is reached in option position as the final
command-line argument (no following value), `main` returns 1, and does so
for every fetch and subprocess oracle — no network activity can occur or
influence the result. -/
theorem gh_data_missing_value (argv0 : List Char) (pre : List (List Char))
    (ca : List (List Char)) (gd : Option (List Char))
    (hpre : scanArgs pre = some (ca, gd))
    (fetch : List Char → FetchOutcome)
    (run : List (List Char) → SubprocResult) :
    Wrapper.main (argv0 :: (pre ++ [ghDataTok])) fetch run = 1 := by
  have h := scanArgs_append_flag pre.length pre (Nat.le_refl _) ca gd hpre
  simp [Wrapper.main, h]

theorem gh_data_missing_value_witness :
    Wrapper.main ["prog".data, "update".data, ghDataTok]
        (fun _ => FetchOutcome.success "p".data)
        (fun _ => SubprocResult.exited 0) = 1 :=
  gh_data_missing_value "prog".data ["update".data] ["update".data] none
    rfl (fun _ => FetchOutcome.success "p".data)
    (fun _ => SubprocResult.exited 0)